import Mathlib

/-!
Shallow embedding of `grid_royale/gamey/base.py`: the action-space contract
(one-hot encoding, decoding, slugification), the state-transition protocol
(naive and batched dispatch), and the rollout/training driver.

Python-level failures (ValueError, IndexError, RuntimeError, KeyError) are
modelled with an explicit error type and `Except`.
-/

set_option autoImplicit false

namespace GridRoyale

/-- The Python exception kinds raised by the embedded code. -/
inductive PyError where
  | valueError
  | indexError
  | runtimeError
  | keyError
  deriving DecidableEq, Repr

/-- The value returned by `_ActionType.__getitem__`.  The source's loop body
`if j == i: return cls` returns the metaclass receiver `cls` (the action
class object itself) rather than the enumerated `item`; the result type
distinguishes the two possible kinds of value. -/
inductive GetItemResult (α : Type) where
  | action (a : α)
  | cls
  deriving DecidableEq, Repr

/-- A discrete action type: `Action.all_actions`, the class-level exhaustive
ordered enumeration of the action space (`_ActionType.__iter__` iterates it,
`__len__` measures it). -/
structure ActionType (α : Type) where
  all_actions : List α

/-- The `for j, item in enumerate(cls)` loop inside `_ActionType.__getitem__`:
`j` is the running enumeration counter.  When `j == i` the source executes
`return cls` — returning the class, not `item` — and if the loop is exhausted
it raises `RuntimeError`. -/
def getItemLoop {α : Type} (i : Nat) : List α → Nat → Except PyError (GetItemResult α)
  | [], _ => .error .runtimeError
  | _item :: rest, j => if j = i then .ok .cls else getItemLoop i rest (j + 1)

/-- `_ActionType.__getitem__(cls, i)`: raises `IndexError` when `i >= len(cls)`,
otherwise runs the enumeration loop. -/
def ActionType.getItem {α : Type} (A : ActionType α) (i : Nat) :
    Except PyError (GetItemResult α) :=
  if A.all_actions.length ≤ i then .error .indexError
  else getItemLoop i A.all_actions 0

/-- Python's `tuple.index(v)`: the index of the first occurrence of `v`,
raising `ValueError` when `v` does not occur. -/
def listIndex (v : Nat) : List Nat → Except PyError Nat
  | [] => .error .valueError
  | x :: xs => if x = v then .ok 0 else (listIndex v xs).map (· + 1)

/-- `Action.to_neurons`: `np.array([int(self == action) for action in type(self)])`,
the one-hot vector over `all_actions` (the 0.0/1.0 float entries are modelled
as the naturals 0/1). -/
def to_neurons {α : Type} [DecidableEq α] (A : ActionType α) (a : α) : List Nat :=
  A.all_actions.map (fun action => if a = action then 1 else 0)

/-- `Action.from_neurons(cls, neurons)`: `cls[tuple(neurons).index(1)]`. -/
def from_neurons {α : Type} (A : ActionType α) (neurons : List Nat) :
    Except PyError (GetItemResult α) :=
  match listIndex 1 neurons with
  | .error e => .error e
  | .ok i => A.getItem i

/-- `_action_regex_head`: the character class `[A-Za-z0-9.]`. -/
def actionRegexHead (c : Char) : Bool :=
  (('A' ≤ c && c ≤ 'Z') || ('a' ≤ c && c ≤ 'z') || ('0' ≤ c && c ≤ '9') || (c = '.'))

/-- The character class of `_action_regex_tail`: letters, digits, underscore,
dot, hyphen, slash and greater-than (the pattern is this class starred; a
single character fullmatches the starred pattern exactly when it belongs to
the class). -/
def actionRegexTail (c : Char) : Bool :=
  (('A' ≤ c && c ≤ 'Z') || ('a' ≤ c && c ≤ 'z') || ('0' ≤ c && c ≤ '9') ||
    (c = '_') || (c = '.') || (c = '-') || (c = '/') || (c = '>'))

/-- `_action_regex` fullmatch: one head-class character followed by any number
of tail-class characters, over a string modelled as a list of characters. -/
def action_regex (l : List Char) : Bool :=
  match l with
  | [] => false
  | c :: cs => actionRegexHead c && cs.all actionRegexTail

/-- `Action.slugify`: reads `raw[0]` (IndexError on an empty string), prefixes
the sentinel `'0'` when the first character is not head-valid, and replaces
every character outside the tail class with `'-'`. -/
def slugify (raw : List Char) : Except PyError (List Char) :=
  match raw with
  | [] => .error .indexError
  | c :: cs =>
    let pfx : List Char := if actionRegexHead c then [] else ['0']
    let characters := (c :: cs).map (fun d => if actionRegexTail d then d else '-')
    .ok (pfx ++ characters)

/-- The part of an `Observation` the transition protocol reads: the `is_end`
flag; `data` stands for everything else an observation carries (its payload as
seen by the strategy's decision and value-query functions). -/
structure Obs (ν : Type) where
  is_end : Bool
  data : ν
  deriving DecidableEq, Repr

/-- The strategy interface the dispatch code consumes (supplied by the
`strategizing` collaborator module): `decide_action_for_observation` with an
optional precomputed value-map `extra`, and the batched value-query
`get_qs_for_observations`.  The naive path calls `decide` with no `extra`
(modelled `none`); the batched path passes the looked-up value-map. -/
structure Strategy (ν α Q : Type) where
  decide_action_for_observation : Obs ν → Option Q → α
  get_qs_for_observations : List (Obs ν) → List Q

/-- `PlayerInfo`: player identity, current observation, and the strategy
controlling the player.  Strategies are referenced by an identifier `σ` with
decidable equality, standing for Python object identity (the grouping key of
the batched dispatch); a global map `σ → Strategy` supplies the behaviour. -/
structure PlayerInfo (ι ν σ : Type) where
  id : ι
  observation : Obs ν
  strategy : σ
  deriving DecidableEq, Repr

/-- `State`: the `is_end` flag and the `player_infos` mapping, modelled as an
insertion-ordered association list (a Python dict iterates in insertion
order). -/
structure State (ι ν σ : Type) where
  is_end : Bool
  player_infos : List (ι × PlayerInfo ι ν σ)
  deriving DecidableEq, Repr

variable {ι ν α Q σ : Type}

/-- The dict comprehension of `State.get_next_state`: for each entry of
`player_infos`, in order, whose observation is not terminal, the action chosen
by `strategy.decide_action_for_observation(observation)` (no precomputed
value-map). -/
def player_id_to_action_naive (S : σ → Strategy ν α Q) :
    List (ι × PlayerInfo ι ν σ) → List (ι × α)
  | [] => []
  | (i, p) :: rest =>
    if p.observation.is_end then player_id_to_action_naive S rest
    else (i, (S p.strategy).decide_action_for_observation p.observation none) ::
      player_id_to_action_naive S rest

/-- `State.get_next_state`: build the naive action mapping and delegate to the
abstract rule-specific `get_next_state_from_actions` (the parameter `next`). -/
def get_next_state (S : σ → Strategy ν α Q)
    (next : List (ι × α) → State ι ν σ) (s : State ι ν σ) : State ι ν σ :=
  next (player_id_to_action_naive S s.player_infos)

/-- First-appearance deduplication: the key order of a dict built by scanning a
sequence and inserting each key on first sight (the key order of
`more_itertools.map_reduce`). -/
def dedupFirst [DecidableEq σ] : List σ → List σ
  | [] => []
  | k :: rest => k :: (dedupFirst rest).filter (fun x => !(x == k))

/-- `more_itertools.map_reduce(self.player_infos.items(), keyfunc=strategy,
reducefunc=tuple)`: a dict whose keys are the strategies in order of first
appearance and whose value at a strategy is the tuple of that strategy's
`(id, player_info)` items in input order (which is exactly the input filtered
to that strategy). -/
def strategy_to_ids_and_player_infos [DecidableEq σ]
    (pis : List (ι × PlayerInfo ι ν σ)) :
    List (σ × List (ι × PlayerInfo ι ν σ)) :=
  (dedupFirst (pis.map (fun p => p.2.strategy))).map
    (fun sid => (sid, pis.filter (fun p => p.2.strategy == sid)))

/-- The `player_id_to_q_map` dict of `NiceState.get_next_state`: for each
strategy group, `zip(ids, strategy.get_qs_for_observations(observations))`,
all updates concatenated in group order. -/
def player_id_to_q_map [DecidableEq σ] (S : σ → Strategy ν α Q)
    (pis : List (ι × PlayerInfo ι ν σ)) : List (ι × Q) :=
  ((strategy_to_ids_and_player_infos pis).map
    (fun g => (g.2.map Prod.fst).zip
      ((S g.1).get_qs_for_observations (g.2.map (fun p => p.2.observation))))).flatten

/-- The trace of batched value-queries issued by `NiceState.get_next_state`:
one `(strategy, observations)` pair per entry of the strategy grouping, in
loop order — `get_qs_for_observations` is invoked exactly once per element. -/
def q_calls [DecidableEq σ] (pis : List (ι × PlayerInfo ι ν σ)) :
    List (σ × List (Obs ν)) :=
  (strategy_to_ids_and_player_infos pis).map
    (fun g => (g.1, g.2.map (fun p => p.2.observation)))

/-- Python dict lookup `player_id_to_q_map[id]` on the accumulated updates:
the most recent binding wins; a missing key raises `KeyError`. -/
def pyLookup [DecidableEq ι] (m : List (ι × Q)) (i : ι) : Except PyError Q :=
  match m.reverse.find? (fun e => e.1 == i) with
  | some e => .ok e.2
  | none => .error .keyError

/-- The dict comprehension of `NiceState.get_next_state`: for each non-terminal
player, in order, `decide_action_for_observation(observation,
extra=player_id_to_q_map[id])`; a failing lookup aborts the comprehension with
`KeyError`. -/
def player_id_to_action_nice [DecidableEq ι] (S : σ → Strategy ν α Q)
    (qmap : List (ι × Q)) :
    List (ι × PlayerInfo ι ν σ) → Except PyError (List (ι × α))
  | [] => .ok []
  | (i, p) :: rest =>
    if p.observation.is_end then player_id_to_action_nice S qmap rest
    else
      match pyLookup qmap i with
      | .error e => .error e
      | .ok q =>
        (player_id_to_action_nice S qmap rest).map
          (fun m => (i, (S p.strategy).decide_action_for_observation p.observation (some q)) :: m)

/-- `NiceState.get_next_state`: group players by strategy, run the batched
value-queries, build the action mapping with the precomputed value-maps, and
delegate to `get_next_state_from_actions` (the parameter `next`). -/
def nice_get_next_state [DecidableEq ι] [DecidableEq σ] (S : σ → Strategy ν α Q)
    (next : List (ι × α) → State ι ν σ) (s : State ι ν σ) :
    Except PyError (State ι ν σ) :=
  (player_id_to_action_nice S (player_id_to_q_map S s.player_infos) s.player_infos).map next

/-- `State.iterate_states`: `while state.player_infos: yield state;
state = state.get_next_state()`.  The generator is lazy and unbounded in
principle; `fuel` bounds how many elements the consumer demands.  `step` is
the dynamically-dispatched `get_next_state`. -/
def iterate_states (step : State ι ν σ → State ι ν σ) :
    Nat → State ι ν σ → List (State ι ν σ)
  | 0, _ => []
  | fuel + 1, s =>
    if s.player_infos.isEmpty then []
    else s :: iterate_states step fuel (step s)

/-- The rollouts of `State.train`: `n` independent rollouts, the `i`-th built
from the fresh state `state_factory()` (modelled as a factory indexed by the
rollout number, since each call may produce a different state) and truncated
to at most `max_game_length` elements by `islice_extended(...)[:max_game_length]`. -/
def trainRollouts (factory : Nat → State ι ν σ) (step : State ι ν σ → State ι ν σ)
    (fuel n maxGameLength : Nat) : List (List (State ι ν σ)) :=
  (List.range n).map (fun i => (iterate_states step fuel (factory i)).take maxGameLength)

/-- `State.train`: the concatenation (`yield from`, rollout after rollout) of
the `n` truncated rollouts. -/
def train (factory : Nat → State ι ν σ) (step : State ι ν σ → State ι ν σ)
    (fuel n maxGameLength : Nat) : List (State ι ν σ) :=
  (trainRollouts factory step fuel n maxGameLength).flatten

/-! Concrete instances used to evaluate the embedded operations. -/

/-- A two-element action space. -/
def space2 : ActionType Nat := ⟨[10, 20]⟩

/-- A three-element action space: actions A, B, C in enumeration order are
modelled as 0, 1, 2. -/
def space3 : ActionType Nat := ⟨[0, 1, 2]⟩

/-- A concrete strategy table: every strategy identifier behaves the same; the
decision ignores the optional value-map and the batched query returns one
value per observation. -/
def S0 : Nat → Strategy Nat Nat Nat :=
  fun _ => ⟨fun o _ => o.data, fun os => os.map (fun _ => 0)⟩

/-- A live (non-terminal) observation. -/
def obsLive : Obs Nat := ⟨false, 7⟩

/-- A second live observation. -/
def obsLive2 : Obs Nat := ⟨false, 8⟩

/-- A terminal observation. -/
def obsEnd : Obs Nat := ⟨true, 9⟩

/-- Three players: two live players sharing strategy 0, one terminal player. -/
def demoPlayers : List (Nat × PlayerInfo Nat Nat Nat) :=
  [(0, ⟨0, obsLive, 0⟩), (1, ⟨1, obsLive2, 0⟩), (2, ⟨2, obsEnd, 0⟩)]

/-- A state holding `demoPlayers`. -/
def sDemo : State Nat Nat Nat := ⟨false, demoPlayers⟩

/-- A state whose `is_end` flag is true but which still holds a live player. -/
def sEnd : State Nat Nat Nat := ⟨true, [(0, ⟨0, obsLive, 0⟩)]⟩

/-- A state with no players. -/
def sEmpty : State Nat Nat Nat := ⟨false, []⟩

/-- A concrete rule-specific `get_next_state_from_actions`: rebuild a state
with one live player per decided action. -/
def next0 : List (Nat × Nat) → State Nat Nat Nat :=
  fun acts => ⟨false, acts.map (fun a => (a.1, ⟨a.1, ⟨false, a.2⟩, 0⟩))⟩

/-- The concrete naive transition used in rollout evaluations. -/
def step0 : State Nat Nat Nat → State Nat Nat Nat :=
  get_next_state S0 next0

/-! Helper lemmas. -/

theorem tail_of_head {c : Char} (h : actionRegexHead c = true) :
    actionRegexTail c = true := by
  simp only [actionRegexHead, Bool.or_eq_true, Bool.and_eq_true,
    decide_eq_true_eq] at h
  simp only [actionRegexTail, Bool.or_eq_true, Bool.and_eq_true,
    decide_eq_true_eq]
  tauto

theorem sub_char_tail (d : Char) :
    actionRegexTail (if actionRegexTail d then d else '-') = true := by
  by_cases hd : actionRegexTail d = true
  · simp [hd]
  · simp only [Bool.not_eq_true] at hd
    simp [hd]
    decide

theorem map_sub_id {l : List Char} (h : l.all actionRegexTail = true) :
    l.map (fun d => if actionRegexTail d then d else '-') = l := by
  induction l with
  | nil => rfl
  | cons d rest ih =>
    simp only [List.all_cons, Bool.and_eq_true] at h
    simp [h.1, ih h.2]

theorem listIndex_not_mem {v : Nat} {l : List Nat} (h : v ∉ l) :
    listIndex v l = .error .valueError := by
  induction l with
  | nil => rfl
  | cons x xs ih =>
    simp only [List.mem_cons, not_or] at h
    have hx : ¬ x = v := fun hc => h.1 hc.symm
    simp [listIndex, hx, ih h.2, Except.map]

theorem getItemLoop_ok {α : Type} (items : List α) (i j : Nat)
    (hj : j ≤ i) (hlt : i - j < items.length) :
    getItemLoop i items j = .ok .cls := by
  induction items generalizing j with
  | nil => simp at hlt
  | cons x rest ih =>
    by_cases hji : j = i
    · simp [getItemLoop, hji]
    · have hj2 : j + 1 ≤ i := Nat.lt_of_le_of_ne hj hji
      have hlt2 : i - (j + 1) < rest.length := by
        simp only [List.length_cons] at hlt
        omega
      simp [getItemLoop, hji, ih (j + 1) hj2 hlt2]

theorem getItem_ok {α : Type} (A : ActionType α) (i : Nat)
    (h : i < A.all_actions.length) : A.getItem i = .ok .cls := by
  unfold ActionType.getItem
  rw [if_neg (by omega)]
  exact getItemLoop_ok A.all_actions i 0 (Nat.zero_le i) (by omega)

/-! Claim theorems for the action-space contract. -/

/-- Claim C1: the spec says `from_neurons(to_neurons(a))` returns `a` itself.
On the code it does not: `_ActionType.__getitem__` returns `cls` (the action
class object) instead of the enumerated `item`, so the round trip yields the
class, never the action.  Evaluated here at a concrete two-action space. -/
theorem from_neurons_roundtrip_returns_class :
    from_neurons space2 (to_neurons space2 10) = .ok .cls ∧
    from_neurons space2 (to_neurons space2 10) ≠ .ok (.action 10) := by
  refine ⟨rfl, ?_⟩
  have h1 : from_neurons space2 (to_neurons space2 10) = .ok .cls := rfl
  rw [h1]
  simp

/-- Claim C9: with three enumerated actions A=0, B=1, C=2, the one-hot
encoding of A is `[1,0,0]` as the spec says, but `from_neurons([0,1,0])`
returns the action class object (`cls`), not B, because
`_ActionType.__getitem__` returns `cls` instead of `item`. -/
theorem three_action_scenario :
    to_neurons space3 0 = [1, 0, 0] ∧
    from_neurons space3 [0, 1, 0] = .ok .cls ∧
    from_neurons space3 [0, 1, 0] ≠ .ok (.action 1) := by
  refine ⟨rfl, rfl, ?_⟩
  have h1 : from_neurons space3 [0, 1, 0] = .ok .cls := rfl
  rw [h1]
  simp

/-- Claim C6, counterexample: the claim says `from_neurons` fails whenever the
input has more than one entry equal to 1; on the vector `[1, 1]` the code
succeeds (Python's `tuple.index(1)` silently returns the first match). -/
theorem from_neurons_two_active_no_error :
    from_neurons space2 [1, 1] = .ok .cls := rfl

/-- Claim C6, amended: `from_neurons` raises a ValueError-equivalent only when
no entry equals 1; when at least one entry equals 1 (even several) it looks up
the first such index and, when that index is in range, returns without error;
indexing the enumeration at or past its length raises IndexError. -/
theorem from_neurons_error_conditions {α : Type} (A : ActionType α)
    (ns : List Nat) (i : Nat) (hi : A.all_actions.length ≤ i) :
    (1 ∉ ns → from_neurons A ns = .error .valueError) ∧
    A.getItem i = .error .indexError ∧
    (∀ j, listIndex 1 ns = .ok j → j < A.all_actions.length →
      from_neurons A ns = .ok .cls) := by
  refine ⟨fun hmem => ?_, ?_, fun j hj hjlt => ?_⟩
  · unfold from_neurons
    rw [listIndex_not_mem hmem]
  · unfold ActionType.getItem
    rw [if_pos hi]
  · unfold from_neurons
    rw [hj]
    exact getItem_ok A j hjlt

/-- Witness for `from_neurons_error_conditions`, at the two-action space:
the all-zero vector raises ValueError, index 5 raises IndexError, and the
two-active vector `[1, 1]` succeeds. -/
theorem from_neurons_error_conditions_witness :
    from_neurons space2 [0, 0] = .error .valueError ∧
    ActionType.getItem space2 5 = .error .indexError ∧
    from_neurons space2 [1, 1] = .ok .cls :=
  ⟨(from_neurons_error_conditions space2 [0, 0] 5 (by decide)).1 (by decide),
   (from_neurons_error_conditions space2 [0, 0] 5 (by decide)).2.1,
   (from_neurons_error_conditions space2 [1, 1] 5 (by decide)).2.2 0 rfl
     (by decide)⟩

/-- Claim C7: on any action whose string form is non-empty, `slugify` succeeds
and its output fullmatches `_action_regex` (non-empty, head-valid first
character, tail-valid remainder); when the input already fullmatches the
regex, the output is the input unchanged. -/
theorem slugify_spec (raw : List Char) (h : raw ≠ []) :
    ∃ out, slugify raw = .ok out ∧ action_regex out = true ∧
      (action_regex raw = true → out = raw) := by
  match raw with
  | [] => exact absurd rfl h
  | c :: cs =>
    by_cases hc : actionRegexHead c = true
    · refine ⟨(c :: cs).map (fun d => if actionRegexTail d then d else '-'),
        ?_, ?_, ?_⟩
      · simp [slugify, hc]
      · have hmap : (c :: cs).map (fun d => if actionRegexTail d then d else '-')
            = c :: cs.map (fun d => if actionRegexTail d then d else '-') := by
          simp [tail_of_head hc]
        rw [hmap]
        simp only [action_regex, hc, Bool.true_and, List.all_eq_true]
        intro d hd
        obtain ⟨e, _, rfl⟩ := List.mem_map.mp hd
        exact sub_char_tail e
      · intro hvalid
        simp only [action_regex, Bool.and_eq_true] at hvalid
        exact map_sub_id (by simp [List.all_cons, tail_of_head hc, hvalid.2])
    · simp only [Bool.not_eq_true] at hc
      refine ⟨'0' :: (c :: cs).map (fun d => if actionRegexTail d then d else '-'),
        ?_, ?_, ?_⟩
      · simp [slugify, hc]
      · simp only [action_regex, List.all_eq_true, Bool.and_eq_true]
        refine ⟨by decide, fun d hd => ?_⟩
        obtain ⟨e, _, rfl⟩ := List.mem_map.mp hd
        exact sub_char_tail e
      · intro hvalid
        simp only [action_regex, Bool.and_eq_true] at hvalid
        rw [hvalid.1] at hc
        cases hc

/-- Witness for `slugify_spec`: the string "a!b" slugifies successfully to a
valid slug. -/
theorem slugify_spec_witness :
    ∃ out, slugify ['a', '!', 'b'] = .ok out ∧ action_regex out = true ∧
      (action_regex ['a', '!', 'b'] = true → out = ['a', '!', 'b']) :=
  slugify_spec ['a', '!', 'b'] (by simp)

/-! Lemmas about the batched-dispatch grouping and value-map. -/

theorem mem_dedupFirst {σ : Type} [DecidableEq σ] {a : σ} {l : List σ} :
    a ∈ dedupFirst l ↔ a ∈ l := by
  induction l with
  | nil => simp [dedupFirst]
  | cons k rest ih =>
    simp only [dedupFirst, List.mem_cons, List.mem_filter]
    constructor
    · rintro (rfl | ⟨hmem, _⟩)
      · exact .inl rfl
      · exact .inr (ih.mp hmem)
    · rintro (rfl | hmem)
      · exact .inl rfl
      · by_cases hak : a = k
        · exact .inl hak
        · exact .inr ⟨ih.mpr hmem, by simp [hak]⟩

theorem nodup_dedupFirst {σ : Type} [DecidableEq σ] (l : List σ) :
    (dedupFirst l).Nodup := by
  induction l with
  | nil => exact List.nodup_nil
  | cons k rest ih =>
    refine List.Nodup.cons ?_ (List.Nodup.filter _ ih)
    intro hmem
    have h2 := (List.mem_filter.mp hmem).2
    simp at h2

theorem group_mem {ι ν σ : Type} [DecidableEq σ]
    {pis : List (ι × PlayerInfo ι ν σ)} {p : ι × PlayerInfo ι ν σ}
    (hp : p ∈ pis) :
    (p.2.strategy, pis.filter (fun x => x.2.strategy == p.2.strategy)) ∈
      strategy_to_ids_and_player_infos pis := by
  unfold strategy_to_ids_and_player_infos
  refine List.mem_map.mpr ⟨p.2.strategy, ?_, rfl⟩
  exact mem_dedupFirst.mpr (List.mem_map.mpr ⟨p, hp, rfl⟩)

theorem groups_keys {ι ν σ : Type} [DecidableEq σ]
    (pis : List (ι × PlayerInfo ι ν σ)) :
    (strategy_to_ids_and_player_infos pis).map Prod.fst
      = dedupFirst (pis.map (fun x => x.2.strategy)) := by
  unfold strategy_to_ids_and_player_infos
  rw [List.map_map]
  exact List.map_id _

theorem pyLookup_ok_of_mem_keys {ι Q : Type} [DecidableEq ι]
    {m : List (ι × Q)} {i : ι} (h : i ∈ m.map Prod.fst) :
    ∃ q, pyLookup m i = .ok q := by
  unfold pyLookup
  obtain ⟨e, he, hei⟩ := List.mem_map.mp h
  have hsome : (m.reverse.find? (fun x => x.1 == i)).isSome := by
    rw [List.find?_isSome]
    exact ⟨e, List.mem_reverse.mpr he, by simp [hei]⟩
  match hfind : m.reverse.find? (fun x => x.1 == i) with
  | some e2 => exact ⟨e2.2, by rw [hfind]⟩
  | none => rw [hfind] at hsome; cases hsome

theorem qmap_covers {ι ν α Q σ : Type} [DecidableEq ι] [DecidableEq σ]
    (S : σ → Strategy ν α Q) {pis : List (ι × PlayerInfo ι ν σ)}
    {p : ι × PlayerInfo ι ν σ} (hp : p ∈ pis)
    (hlen : ∀ sid os, ((S sid).get_qs_for_observations os).length = os.length) :
    ∃ q, pyLookup (player_id_to_q_map S pis) p.1 = .ok q := by
  apply pyLookup_ok_of_mem_keys
  unfold player_id_to_q_map
  have hpg : p ∈ pis.filter (fun x => x.2.strategy == p.2.strategy) :=
    List.mem_filter.mpr ⟨hp, by simp⟩
  have hkeys : (((pis.filter (fun x => x.2.strategy == p.2.strategy)).map Prod.fst).zip
        ((S p.2.strategy).get_qs_for_observations
          ((pis.filter (fun x => x.2.strategy == p.2.strategy)).map
            (fun x => x.2.observation)))).map Prod.fst
      = (pis.filter (fun x => x.2.strategy == p.2.strategy)).map Prod.fst := by
    apply List.map_fst_zip
    rw [hlen]
    simp
  have hmem1 : p.1 ∈ (((pis.filter (fun x => x.2.strategy == p.2.strategy)).map Prod.fst).zip
      ((S p.2.strategy).get_qs_for_observations
        ((pis.filter (fun x => x.2.strategy == p.2.strategy)).map
          (fun x => x.2.observation)))).map Prod.fst := by
    rw [hkeys]
    exact List.mem_map.mpr ⟨p, hpg, rfl⟩
  obtain ⟨e, hel, hei⟩ := List.mem_map.mp hmem1
  refine List.mem_map.mpr ⟨e, ?_, hei⟩
  refine List.mem_flatten.mpr ⟨_, ?_, hel⟩
  exact List.mem_map.mpr ⟨(p.2.strategy,
    pis.filter (fun x => x.2.strategy == p.2.strategy)), group_mem hp, rfl⟩

theorem nice_actions_eq_naive {ι ν α Q σ : Type} [DecidableEq ι]
    (S : σ → Strategy ν α Q) (qmap : List (ι × Q))
    (hdec : ∀ sid o q, (S sid).decide_action_for_observation o (some q) =
      (S sid).decide_action_for_observation o none)
    (l : List (ι × PlayerInfo ι ν σ))
    (hlk : ∀ p ∈ l, ∃ q, pyLookup qmap p.1 = .ok q) :
    player_id_to_action_nice S qmap l = .ok (player_id_to_action_naive S l) := by
  induction l with
  | nil => rfl
  | cons hd rest ih =>
    obtain ⟨i, p⟩ := hd
    have ihr := ih (fun x hx => hlk x (List.mem_cons_of_mem _ hx))
    by_cases hend : p.observation.is_end = true
    · simp [player_id_to_action_nice, player_id_to_action_naive, hend, ihr]
    · simp only [Bool.not_eq_true] at hend
      obtain ⟨q, hq⟩ := hlk (i, p) (List.mem_cons_self _ _)
      simp [player_id_to_action_nice, player_id_to_action_naive, hend, hq, ihr,
        Except.map, hdec]

/-- Claim C2: on any starting state whose strategies decide identically with
or without a precomputed value-map (and whose batched value-query honours the
one-value-per-observation contract), batched dispatch
(`NiceState.get_next_state`) succeeds and produces exactly the successor state
of naive dispatch (`State.get_next_state`), for every rule-specific
`get_next_state_from_actions`. -/
theorem naive_batched_equivalent {ι ν α Q σ : Type} [DecidableEq ι] [DecidableEq σ]
    (S : σ → Strategy ν α Q) (next : List (ι × α) → State ι ν σ) (s : State ι ν σ)
    (hdec : ∀ sid o q, (S sid).decide_action_for_observation o (some q) =
      (S sid).decide_action_for_observation o none)
    (hlen : ∀ sid os, ((S sid).get_qs_for_observations os).length = os.length) :
    nice_get_next_state S next s = .ok (get_next_state S next s) := by
  unfold nice_get_next_state get_next_state
  rw [nice_actions_eq_naive S _ hdec s.player_infos
    (fun p hp => qmap_covers S hp hlen)]
  rfl

/-- Witness for `naive_batched_equivalent`: the two dispatch strategies agree
on a concrete three-player state (two live players sharing a strategy, one
terminal player). -/
theorem naive_batched_equivalent_witness :
    nice_get_next_state S0 next0 sDemo = .ok (get_next_state S0 next0 sDemo) :=
  naive_batched_equivalent S0 next0 sDemo (fun _ _ _ => rfl)
    (fun _ os => by simp [S0])

theorem naive_action_keys {ι ν α Q σ : Type} (S : σ → Strategy ν α Q)
    (l : List (ι × PlayerInfo ι ν σ)) :
    (player_id_to_action_naive S l).map Prod.fst
      = (l.filter (fun p => !p.2.observation.is_end)).map Prod.fst := by
  induction l with
  | nil => rfl
  | cons hd rest ih =>
    obtain ⟨i, p⟩ := hd
    by_cases hend : p.observation.is_end = true
    · simp [player_id_to_action_naive, List.filter_cons, hend, ih]
    · simp only [Bool.not_eq_true] at hend
      simp [player_id_to_action_naive, List.filter_cons, hend, ih]

theorem nice_action_keys {ι ν α Q σ : Type} [DecidableEq ι]
    (S : σ → Strategy ν α Q) (qmap : List (ι × Q))
    (l : List (ι × PlayerInfo ι ν σ)) (m : List (ι × α))
    (hm : player_id_to_action_nice S qmap l = .ok m) :
    m.map Prod.fst = (l.filter (fun p => !p.2.observation.is_end)).map Prod.fst := by
  induction l generalizing m with
  | nil =>
    simp only [player_id_to_action_nice, Except.ok.injEq] at hm
    subst hm
    rfl
  | cons hd rest ih =>
    obtain ⟨i, p⟩ := hd
    by_cases hend : p.observation.is_end = true
    · simp only [player_id_to_action_nice, hend, if_true] at hm
      simp [List.filter_cons, hend, ih m hm]
    · simp only [Bool.not_eq_true] at hend
      simp only [player_id_to_action_nice, hend, Bool.false_eq_true, if_false] at hm
      match hq : pyLookup qmap i with
      | .error e => rw [hq] at hm; cases hm
      | .ok q =>
        rw [hq] at hm
        match hrec : player_id_to_action_nice S qmap rest with
        | .error e => rw [hrec] at hm; cases hm
        | .ok m2 =>
          rw [hrec] at hm
          simp only [Except.map, Except.ok.injEq] at hm
          subst hm
          simp [List.filter_cons, hend, ih m2 hrec]

theorem not_mem_nonterminal_keys {ι ν σ : Type}
    {pis : List (ι × PlayerInfo ι ν σ)} {p : ι × PlayerInfo ι ν σ}
    (hnd : (pis.map Prod.fst).Nodup) (hp : p ∈ pis)
    (hend : p.2.observation.is_end = true) :
    p.1 ∉ (pis.filter (fun x => !x.2.observation.is_end)).map Prod.fst := by
  intro hc
  obtain ⟨x, hxf, hxi⟩ := List.mem_map.mp hc
  have hxm := List.mem_filter.mp hxf
  have hxp : x = p := List.inj_on_of_nodup_map hnd hxm.1 hp hxi
  rw [hxp, hend] at hxm
  simp at hxm

/-- Claim C4: in both dispatch paths the action mapping handed to
`get_next_state_from_actions` has as keys exactly the ids of the players whose
observation is non-terminal, in player order, and a player whose observation
is terminal never appears among the keys. -/
theorem action_keys_exactly_nonterminal {ι ν α Q σ : Type} [DecidableEq ι]
    (S : σ → Strategy ν α Q) (qmap : List (ι × Q)) (s : State ι ν σ)
    (m : List (ι × α))
    (hm : player_id_to_action_nice S qmap s.player_infos = .ok m)
    (hnd : (s.player_infos.map Prod.fst).Nodup) :
    (player_id_to_action_naive S s.player_infos).map Prod.fst
        = (s.player_infos.filter (fun p => !p.2.observation.is_end)).map Prod.fst ∧
    m.map Prod.fst
        = (s.player_infos.filter (fun p => !p.2.observation.is_end)).map Prod.fst ∧
    ∀ p ∈ s.player_infos, p.2.observation.is_end = true →
      p.1 ∉ (player_id_to_action_naive S s.player_infos).map Prod.fst ∧
      p.1 ∉ m.map Prod.fst := by
  refine ⟨naive_action_keys S s.player_infos,
    nice_action_keys S qmap s.player_infos m hm, fun p hp hend => ?_⟩
  rw [naive_action_keys S s.player_infos,
    nice_action_keys S qmap s.player_infos m hm]
  exact ⟨not_mem_nonterminal_keys hnd hp hend, not_mem_nonterminal_keys hnd hp hend⟩

/-- Witness for `action_keys_exactly_nonterminal`: evaluated on the concrete
three-player state `sDemo` (live players 0,1; terminal player 2) with the
concrete batched value-map; player 2 is not a key. -/
theorem action_keys_exactly_nonterminal_witness :
    (player_id_to_action_naive S0 sDemo.player_infos).map Prod.fst
        = (sDemo.player_infos.filter (fun p => !p.2.observation.is_end)).map Prod.fst ∧
    ((0, 7) :: [(1, 8)] : List (Nat × Nat)).map Prod.fst
        = (sDemo.player_infos.filter (fun p => !p.2.observation.is_end)).map Prod.fst ∧
    (2 : Nat) ∉ (player_id_to_action_naive S0 sDemo.player_infos).map Prod.fst := by
  have h := action_keys_exactly_nonterminal S0 (player_id_to_q_map S0 demoPlayers)
    sDemo ((0, 7) :: [(1, 8)]) rfl (by decide)
  exact ⟨h.1, h.2.1, (h.2.2 (2, ⟨2, obsEnd, 0⟩) (by decide) rfl).1⟩

theorem q_calls_keys {ι ν σ : Type} [DecidableEq σ]
    (pis : List (ι × PlayerInfo ι ν σ)) :
    (q_calls pis).map Prod.fst = dedupFirst (pis.map (fun x => x.2.strategy)) := by
  unfold q_calls
  rw [List.map_map]
  have h1 : (Prod.fst ∘ fun g : σ × List (ι × PlayerInfo ι ν σ) =>
      (g.1, g.2.map (fun p => p.2.observation))) = Prod.fst := rfl
  rw [h1, groups_keys]

/-- Claim C5: in one batched turn, the distinct strategies are queried without
repetition (the call-trace keys are nodup), and any player's strategy is
queried with the observations of all the players sharing that strategy,
collected in their original `player_infos` order — two players sharing one
strategy yield one call covering both observations. -/
theorem batched_query_once_per_strategy {ι ν σ : Type} [DecidableEq σ]
    (pis : List (ι × PlayerInfo ι ν σ)) (p : ι × PlayerInfo ι ν σ)
    (hp : p ∈ pis) :
    ((q_calls pis).map Prod.fst).Nodup ∧
    (p.2.strategy, (pis.filter (fun x => x.2.strategy == p.2.strategy)).map
        (fun x => x.2.observation)) ∈ q_calls pis := by
  constructor
  · rw [q_calls_keys]
    exact nodup_dedupFirst _
  · exact List.mem_map.mpr ⟨_, group_mem hp, rfl⟩

/-- Witness for `batched_query_once_per_strategy`: on `sDemo`'s players (all
sharing strategy 0) there is a single batched call carrying all three
observations. -/
theorem batched_query_once_per_strategy_witness :
    ((q_calls demoPlayers).map Prod.fst).Nodup ∧
    ((0 : Nat), (demoPlayers.filter (fun x => x.2.strategy == 0)).map
        (fun x => x.2.observation)) ∈ q_calls demoPlayers :=
  batched_query_once_per_strategy demoPlayers (0, ⟨0, obsLive, 0⟩) (by decide)

/-- Claim C10: in `NiceState.get_next_state` every player — terminal or not —
is carried into its strategy's batched value-query (its observation is in the
group's observation list) and receives an entry in the per-player value-map;
terminal players are dropped only afterwards, in the action-decision
comprehension. -/
theorem terminal_players_batched_then_excluded {ι ν α Q σ : Type}
    [DecidableEq ι] [DecidableEq σ] (S : σ → Strategy ν α Q)
    (pis : List (ι × PlayerInfo ι ν σ)) (p : ι × PlayerInfo ι ν σ)
    (hp : p ∈ pis)
    (hlen : ∀ sid os, ((S sid).get_qs_for_observations os).length = os.length)
    (hnd : (pis.map Prod.fst).Nodup) (m : List (ι × α))
    (hm : player_id_to_action_nice S (player_id_to_q_map S pis) pis = .ok m) :
    (p.2.strategy, (pis.filter (fun x => x.2.strategy == p.2.strategy)).map
        (fun x => x.2.observation)) ∈ q_calls pis ∧
    p.2.observation ∈ (pis.filter (fun x => x.2.strategy == p.2.strategy)).map
        (fun x => x.2.observation) ∧
    (∃ q, pyLookup (player_id_to_q_map S pis) p.1 = .ok q) ∧
    (p.2.observation.is_end = true → p.1 ∉ m.map Prod.fst) := by
  refine ⟨List.mem_map.mpr ⟨_, group_mem hp, rfl⟩, ?_, qmap_covers S hp hlen,
    fun hend => ?_⟩
  · exact List.mem_map.mpr ⟨p, List.mem_filter.mpr ⟨hp, by simp⟩, rfl⟩
  · rw [nice_action_keys S _ pis m hm]
    exact not_mem_nonterminal_keys hnd hp hend

/-- Witness for `terminal_players_batched_then_excluded`: the terminal player
2 of `sDemo` is part of the single batched call and has a value-map entry, yet
contributes no action. -/
theorem terminal_players_batched_then_excluded_witness :
    ((0 : Nat), (demoPlayers.filter (fun x => x.2.strategy == 0)).map
        (fun x => x.2.observation)) ∈ q_calls demoPlayers ∧
    obsEnd ∈ (demoPlayers.filter (fun x => x.2.strategy == 0)).map
        (fun x => x.2.observation) ∧
    (∃ q, pyLookup (player_id_to_q_map S0 demoPlayers) 2 = .ok q) ∧
    (2 : Nat) ∉ (((0, 7) :: [(1, 8)] : List (Nat × Nat)).map Prod.fst) := by
  have h := terminal_players_batched_then_excluded S0 demoPlayers
    (2, ⟨2, obsEnd, 0⟩) (by decide) (fun _ os => by simp [S0]) (by decide)
    ((0, 7) :: [(1, 8)]) rfl
  exact ⟨h.1, h.2.1, h.2.2.1, h.2.2.2 rfl⟩

/-- Claim C3, counterexample: the claim says no transition is attempted on a
state whose `is_end` is true; but `iterate_states`'s loop condition only
checks `player_infos`, so from the concrete state `sEnd` (with `is_end` true
and one live player) the chain advances — `get_next_state` is applied to
`sEnd` and a second state is produced. -/
theorem iterate_states_past_is_end_counterexample :
    sEnd.is_end = true ∧ sEnd.player_infos ≠ [] ∧
    (iterate_states step0 2 sEnd).length = 2 ∧
    iterate_states step0 2 sEnd = [sEnd, step0 sEnd] := by
  refine ⟨rfl, by simp [sEnd], rfl, rfl⟩

/-- Claim C3, amended: once a state's `player_infos` mapping is empty, no
further transition is attempted on it (the `is_end` flag alone does not stop
iteration); in particular `iterate_states` on a state with empty
`player_infos` yields zero elements, and every state the chain yields (and
hence every state a transition is attempted on) has a non-empty
`player_infos`. -/
theorem iterate_states_empty_stops {ι ν σ : Type}
    (step : State ι ν σ → State ι ν σ) (fuel : Nat) (s : State ι ν σ) :
    (s.player_infos = [] → iterate_states step fuel s = []) ∧
    (∀ t ∈ iterate_states step fuel s, t.player_infos ≠ []) := by
  induction fuel generalizing s with
  | zero => exact ⟨fun _ => rfl, by simp [iterate_states]⟩
  | succ n ih =>
    constructor
    · intro h
      simp [iterate_states, h]
    · intro t ht
      rw [iterate_states] at ht
      by_cases hemp : s.player_infos.isEmpty = true
      · rw [if_pos hemp] at ht
        cases ht
      · rw [if_neg hemp] at ht
        rcases List.mem_cons.mp ht with rfl | hmem
        · intro hc
          exact hemp (by simp [hc])
        · exact (ih (step s)).2 t hmem

/-- Witness for `iterate_states_empty_stops`: iterating from the concrete
empty-player state yields zero elements. -/
theorem iterate_states_empty_stops_witness :
    iterate_states step0 3 sEmpty = [] :=
  (iterate_states_empty_stops step0 3 sEmpty).1 rfl

theorem flatten_length_le {β : Type} (L : List (List β)) (M : Nat)
    (h : ∀ r ∈ L, r.length ≤ M) : L.flatten.length ≤ L.length * M := by
  induction L with
  | nil => simp
  | cons r rest ih =>
    simp only [List.flatten_cons, List.length_append, List.length_cons]
    have h1 := h r (List.mem_cons_self _ _)
    have h2 := ih (fun x hx => h x (List.mem_cons_of_mem _ hx))
    calc r.length + rest.flatten.length ≤ M + rest.length * M :=
          Nat.add_le_add h1 h2
      _ = (rest.length + 1) * M := by ring

/-- Claim C8: `train` runs exactly `n` rollouts; the `i`-th rollout is the
chain from the fresh state `factory i` truncated to at most `maxGameLength`
elements; so each rollout yields at most `maxGameLength` states and the whole
training run at most `n * maxGameLength` states. -/
theorem train_rollout_bounds {ι ν σ : Type} (factory : Nat → State ι ν σ)
    (step : State ι ν σ → State ι ν σ) (fuel n M : Nat) :
    (trainRollouts factory step fuel n M).length = n ∧
    (∀ r ∈ trainRollouts factory step fuel n M, r.length ≤ M) ∧
    (train factory step fuel n M).length ≤ n * M ∧
    (∀ i, i < n → (trainRollouts factory step fuel n M)[i]?
        = some ((iterate_states step fuel (factory i)).take M)) := by
  have hlen : (trainRollouts factory step fuel n M).length = n := by
    simp [trainRollouts]
  have hbound : ∀ r ∈ trainRollouts factory step fuel n M, r.length ≤ M := by
    intro r hr
    obtain ⟨i, _, rfl⟩ := List.mem_map.mp hr
    rw [List.length_take]
    exact min_le_left _ _
  refine ⟨hlen, hbound, ?_, ?_⟩
  · have h3 := flatten_length_le (trainRollouts factory step fuel n M) M hbound
    rw [hlen] at h3
    exact h3
  · intro i hi
    simp [trainRollouts, List.getElem?_range, hi]

/-- Witness for `train_rollout_bounds`: three rollouts of length cap 4 from
the concrete state `sDemo`. -/
theorem train_rollout_bounds_witness :
    (trainRollouts (fun _ => sDemo) step0 2 3 4).length = 3 ∧
    (train (fun _ => sDemo) step0 2 3 4).length ≤ 3 * 4 ∧
    (trainRollouts (fun _ => sDemo) step0 2 3 4)[1]?
        = some ((iterate_states step0 2 sDemo).take 4) :=
  ⟨(train_rollout_bounds (fun _ => sDemo) step0 2 3 4).1,
   (train_rollout_bounds (fun _ => sDemo) step0 2 3 4).2.2.1,
   (train_rollout_bounds (fun _ => sDemo) step0 2 3 4).2.2.2 1 (by decide)⟩

end GridRoyale
